import Mathlib

/-!
Verification development for the MorseDiscord tone generator.

The program (src/main.py, src/utils/keyutils.py) generates a sine tone while a
configured set of keys is held.  The core is `generate_audio`, a phase-continuous
sine oscillator, and `audio_callback`, the real-time render callback that either
fills a buffer with tone (gate on) or rings out the remaining wave period (gate
off).  Key handling lives in `keyutils.py`.

Modelling conventions for the shallow embedding:
* Python floats are modelled by exact rationals `ℚ` for all time/offset
  arithmetic; sample amplitudes use `ℝ` via `Real.sin` (numpy's `sin`).
  Statements about "within floating-point tolerance" become exact equalities
  in this exact-arithmetic model.
* `np.linspace(offset, n / sr + offset, n, endpoint := False)` has step
  `1 / sr`, i.e. time point `i` is `offset + i / sr`; it is modelled by
  `timePoints`.
* The `while offset >= 1 / FREQUENCY: offset -= 1 / FREQUENCY` loop is
  modelled by `wrapOffset`, with a `0 < period` guard in the recursion so the
  Lean function is total (for `period ≤ 0` and `period ≤ x` the Python loop
  would not terminate; all claims assume a positive frequency).
* Buffers are lists of frames; a frame is a list of per-channel amplitudes.
  `np.tile(audio[:, np.newaxis], (1, CHANNELS))` becomes `List.replicate`.
-/

namespace MorseDiscord

/-- The offset wrap-around loop in `generate_audio` (src/main.py lines 88-89):
`while offset >= 1 / FREQUENCY: offset -= 1 / FREQUENCY`, with `period = 1 / FREQUENCY`. -/
def wrapOffset (period x : ℚ) : ℚ :=
  if 0 < period ∧ period ≤ x then wrapOffset period (x - period) else x
termination_by (⌊x / period⌋).toNat
decreasing_by
  rename_i h
  obtain ⟨hp, hx⟩ := h
  have h1 : (1 : ℚ) ≤ x / period := (le_div_iff₀ hp).mpr (by linarith)
  have hfl : (1 : ℤ) ≤ ⌊x / period⌋ := Int.le_floor.mpr (by exact_mod_cast h1)
  have heq : (x - period) / period = x / period - ((1 : ℤ) : ℚ) := by
    push_cast
    field_simp
  rw [heq, Int.floor_sub_int]
  omega

theorem wrapOffset_unfold (period x : ℚ) :
    wrapOffset period x = if 0 < period ∧ period ≤ x then wrapOffset period (x - period) else x := by
  rw [wrapOffset]

theorem wrapOffset_of_lt (period x : ℚ) (h : x < period) : wrapOffset period x = x := by
  rw [wrapOffset_unfold, if_neg]
  rintro ⟨_, h2⟩
  exact absurd h2 (not_le.mpr h)

theorem wrapOffset_lt (period x : ℚ) (hp : 0 < period) : wrapOffset period x < period := by
  refine wrapOffset.induct period (fun y => wrapOffset period y < period) ?_ ?_ x
  · intro y h ih
    rw [wrapOffset_unfold, if_pos h]
    exact ih
  · intro y h
    rw [wrapOffset_unfold, if_neg h]
    rcases not_and_or.mp h with h1 | h2
    · exact absurd hp h1
    · exact lt_of_not_le h2

theorem wrapOffset_nonneg (period x : ℚ) (hx : 0 ≤ x) : 0 ≤ wrapOffset period x := by
  refine wrapOffset.induct period (fun y => 0 ≤ y → 0 ≤ wrapOffset period y) ?_ ?_ x hx
  · intro y h ih _
    rw [wrapOffset_unfold, if_pos h]
    exact ih (by linarith [h.1, h.2])
  · intro y h hy
    rw [wrapOffset_unfold, if_neg h]
    exact hy

theorem wrapOffset_sub_nat (period x : ℚ) : ∃ k : ℕ, wrapOffset period x = x - (k : ℚ) * period := by
  refine wrapOffset.induct period
    (fun y => ∃ k : ℕ, wrapOffset period y = y - (k : ℚ) * period) ?_ ?_ x
  · intro y h ih
    obtain ⟨k, hk⟩ := ih
    refine ⟨k + 1, ?_⟩
    rw [wrapOffset_unfold, if_pos h, hk]
    push_cast
    ring
  · intro y h
    refine ⟨0, ?_⟩
    rw [wrapOffset_unfold, if_neg h]
    push_cast
    ring

/-- The time points of `generate_audio` (src/main.py line 86):
`np.linspace(offset, num_samples / SAMPLERATE + offset, num_samples, endpoint=False)`,
whose step is `1 / SAMPLERATE`. -/
def timePoints (sr : ℚ) (num_samples : ℕ) (offset : ℚ) : List ℚ :=
  (List.range num_samples).map (fun (i : ℕ) => offset + (i : ℚ) / sr)

/-- One sample of the oscillator (src/main.py line 90):
`np.sin(2 * np.pi * FREQUENCY * t) * VOLUME`. -/
noncomputable def sampleValue (freq vol : ℚ) (t : ℚ) : ℝ :=
  Real.sin (2 * Real.pi * (freq : ℝ) * (t : ℝ)) * (vol : ℝ)

/-- The updated offset of `generate_audio` (src/main.py lines 87-89):
`offset += num_samples / SAMPLERATE` followed by the wrap-around loop. -/
def newOffset (freq sr : ℚ) (num_samples : ℕ) (offset : ℚ) : ℚ :=
  wrapOffset (1 / freq) (offset + (num_samples : ℚ) / sr)

/-- `generate_audio` (src/main.py lines 78-92): returns the buffer of
`num_samples` frames (each frame the sample value tiled over all channels)
together with the updated, wrapped offset. -/
noncomputable def generate_audio (freq vol sr : ℚ) (channels num_samples : ℕ) (offset : ℚ) :
    List (List ℝ) × ℚ :=
  ((timePoints sr num_samples offset).map (fun t => List.replicate channels (sampleValue freq vol t)),
    newOffset freq sr num_samples offset)

/-- C7: `generate_audio` with `num_samples = 0` returns an empty sample
sequence and the offset unchanged, for every offset in `[0, period)`. -/
theorem generate_audio_zero_samples (freq vol sr offset : ℚ) (channels : ℕ)
    (h0 : 0 ≤ offset) (h1 : offset < 1 / freq) :
    generate_audio freq vol sr channels 0 offset = ([], offset) := by
  have ht : timePoints sr 0 offset = [] := by simp [timePoints]
  have hn : newOffset freq sr 0 offset = offset := by
    unfold newOffset
    simp only [Nat.cast_zero, zero_div, add_zero]
    exact wrapOffset_of_lt _ _ h1
  unfold generate_audio
  rw [ht, hn]
  rfl

/-- Witness for C7 at a concrete input. -/
theorem generate_audio_zero_samples_witness :
    0 ≤ (0 : ℚ) ∧ (0 : ℚ) < 1 / 440 ∧
      generate_audio 440 (1 / 2) 44100 2 0 0 = ([], 0) :=
  ⟨le_refl 0, by norm_num,
    generate_audio_zero_samples 440 (1 / 2) 44100 0 2 (le_refl 0) (by norm_num)⟩

/-- C2: for `num_samples ≥ 1`, offset in `[0, period)`, positive frequency and
sample rate and at least one channel, `generate_audio` returns exactly
`num_samples` frames; frame `i` is the `channels`-fold repetition of
`sin(2π · freq · (offset + i / sr)) · vol` (so the time points start at
`offset`, are spaced `1 / sr` apart, and stop at `offset + (n-1) / sr`), and
all channel values within a frame are identical. -/
theorem generate_audio_output_spec (freq vol sr offset : ℚ) (channels num_samples : ℕ)
    (hn : 1 ≤ num_samples) (h0 : 0 ≤ offset) (h1 : offset < 1 / freq)
    (hf : 0 < freq) (hsr : 0 < sr) (hc : 1 ≤ channels) :
    (generate_audio freq vol sr channels num_samples offset).1.length = num_samples ∧
    (∀ i : ℕ, i < num_samples →
      ((generate_audio freq vol sr channels num_samples offset).1)[i]? =
        some (List.replicate channels
          (Real.sin (2 * Real.pi * (freq : ℝ) * ((offset : ℝ) + (i : ℝ) / (sr : ℝ))) * (vol : ℝ)))) ∧
    (∀ frame ∈ (generate_audio freq vol sr channels num_samples offset).1,
      ∀ a ∈ frame, ∀ b ∈ frame, a = b) := by
  refine ⟨?_, ?_, ?_⟩
  · unfold generate_audio timePoints
    rw [List.length_map, List.length_map, List.length_range]
  · intro i hi
    unfold generate_audio timePoints
    rw [List.getElem?_map, List.getElem?_map, List.getElem?_range hi]
    have harg : ((offset + (i : ℚ) / sr : ℚ) : ℝ) = (offset : ℝ) + (i : ℝ) / (sr : ℝ) := by
      push_cast
      ring
    simp only [Option.map_some']
    unfold sampleValue
    rw [harg]
  · intro frame hframe a ha b hb
    simp only [generate_audio, List.mem_map] at hframe
    obtain ⟨t, _, ht⟩ := hframe
    rw [← ht] at ha hb
    rw [List.eq_of_mem_replicate ha, List.eq_of_mem_replicate hb]

/-- Witness for C2 at a concrete input. -/
theorem generate_audio_output_spec_witness :
    1 ≤ 3 ∧ 0 ≤ (0 : ℚ) ∧ (0 : ℚ) < 1 / 440 ∧ (0 : ℚ) < 440 ∧ (0 : ℚ) < 44100 ∧ 1 ≤ 2 ∧
      (generate_audio 440 (1 / 2) 44100 2 3 0).1.length = 3 :=
  ⟨by norm_num, le_refl 0, by norm_num, by norm_num, by norm_num, by norm_num,
    (generate_audio_output_spec 440 (1 / 2) 44100 0 2 3 (by norm_num) (le_refl 0)
      (by norm_num) (by norm_num) (by norm_num) (by norm_num)).1⟩

/-- Iterated `generate_audio` across consecutive buffers, feeding each call's
returned offset into the next call's input offset (the usage pattern of the
render callback in src/main.py line 108). -/
noncomputable def generate_chain (freq vol sr : ℚ) (channels : ℕ) :
    List ℕ → ℚ → List (List ℝ) × ℚ
  | [], offset => ([], offset)
  | n :: rest, offset =>
    let r := generate_audio freq vol sr channels n offset
    let rs := generate_chain freq vol sr channels rest r.2
    (r.1 ++ rs.1, rs.2)

theorem sampleValue_sub_period (freq vol : ℚ) (hf : freq ≠ 0) (k : ℕ) (t : ℚ) :
    sampleValue freq vol (t - (k : ℚ) * (1 / freq)) = sampleValue freq vol t := by
  unfold sampleValue
  have hfR : (freq : ℝ) ≠ 0 := by exact_mod_cast hf
  have harg : 2 * Real.pi * (freq : ℝ) * (((t - (k : ℚ) * (1 / freq) : ℚ)) : ℝ) =
      2 * Real.pi * (freq : ℝ) * (t : ℝ) - ((k : ℤ) : ℝ) * (2 * Real.pi) := by
    push_cast
    field_simp
    ring
  rw [harg, Real.sin_sub_int_mul_two_pi]

theorem timePoints_add (sr : ℚ) (n m : ℕ) (offset : ℚ) :
    timePoints sr (n + m) offset =
      timePoints sr n offset ++ timePoints sr m (offset + (n : ℚ) / sr) := by
  unfold timePoints
  rw [List.range_add, List.map_append, List.map_map]
  congr 1
  apply List.map_congr_left
  intro i _
  simp only [Function.comp_apply]
  push_cast
  rw [add_div]
  ring

theorem generate_samples_shift (freq vol sr : ℚ) (channels m : ℕ) (o : ℚ) (k : ℕ)
    (hf : freq ≠ 0) :
    (generate_audio freq vol sr channels m (o - (k : ℚ) * (1 / freq))).1 =
      (generate_audio freq vol sr channels m o).1 := by
  unfold generate_audio timePoints
  simp only [List.map_map]
  apply List.map_congr_left
  intro i _
  simp only [Function.comp_apply]
  congr 1
  have : o - (k : ℚ) * (1 / freq) + (i : ℚ) / sr = o + (i : ℚ) / sr - (k : ℚ) * (1 / freq) := by
    ring
  rw [this, sampleValue_sub_period freq vol hf]

theorem generate_samples_append (freq vol sr : ℚ) (channels n m : ℕ) (o : ℚ) :
    (generate_audio freq vol sr channels (n + m) o).1 =
      (generate_audio freq vol sr channels n o).1 ++
        (generate_audio freq vol sr channels m (o + (n : ℚ) / sr)).1 := by
  unfold generate_audio
  simp only [timePoints_add, List.map_append]

theorem generate_chain_samples (freq vol sr : ℚ) (channels : ℕ) (hf : freq ≠ 0) :
    ∀ (ns : List ℕ) (offset : ℚ),
      (generate_chain freq vol sr channels ns offset).1 =
        (generate_audio freq vol sr channels ns.sum offset).1 := by
  intro ns
  induction ns with
  | nil =>
    intro o
    simp [generate_chain, generate_audio, timePoints]
  | cons n rest ih =>
    intro o
    have hstep :
        generate_chain freq vol sr channels (n :: rest) o =
          ((generate_audio freq vol sr channels n o).1 ++
              (generate_chain freq vol sr channels rest (newOffset freq sr n o)).1,
            (generate_chain freq vol sr channels rest (newOffset freq sr n o)).2) := by
      rfl
    rw [hstep]
    simp only [List.sum_cons]
    rw [ih, generate_samples_append]
    congr 1
    obtain ⟨k, hk⟩ := wrapOffset_sub_nat (1 / freq) (o + (n : ℚ) / sr)
    have : newOffset freq sr n o = (o + (n : ℚ) / sr) - (k : ℚ) * (1 / freq) := by
      unfold newOffset
      exact hk
    rw [this, generate_samples_shift freq vol sr channels rest.sum (o + (n : ℚ) / sr) k hf]

/-- C1: phase continuity: splitting a total sample count into consecutive
`generate_audio` calls, feeding each returned offset into the next call,
yields exactly the sample stream of one single call for the summed count
(exact equality in the exact-arithmetic model). -/
theorem generate_audio_phase_continuity (freq vol sr offset : ℚ) (channels : ℕ) (ns : List ℕ)
    (hf : 0 < freq) (hsr : 0 < sr) (h0 : 0 ≤ offset) (h1 : offset < 1 / freq) :
    (generate_chain freq vol sr channels ns offset).1 =
      (generate_audio freq vol sr channels ns.sum offset).1 :=
  generate_chain_samples freq vol sr channels (ne_of_gt hf) ns offset

/-- Witness for C1 at a concrete input. -/
theorem generate_audio_phase_continuity_witness :
    (0 : ℚ) < 440 ∧ (0 : ℚ) < 44100 ∧ 0 ≤ (0 : ℚ) ∧ (0 : ℚ) < 1 / 440 ∧
      (generate_chain 440 (1 / 2) 44100 2 [1, 2] 0).1 =
        (generate_audio 440 (1 / 2) 44100 2 ([1, 2] : List ℕ).sum 0).1 :=
  ⟨by norm_num, by norm_num, le_refl 0, by norm_num,
    generate_audio_phase_continuity 440 (1 / 2) 44100 0 2 [1, 2]
      (by norm_num) (by norm_num) (le_refl 0) (by norm_num)⟩

/-- A silent frame: one zero amplitude per channel. -/
def silentFrame (channels : ℕ) : List ℝ :=
  List.replicate channels 0

/-- The all-zero buffer `np.zeros((frames, CHANNELS))` (src/main.py line 111). -/
def silentBuffer (channels frames : ℕ) : List (List ℝ) :=
  List.replicate frames (silentFrame channels)

/-- Python `int(...)` applied to a numeric value: truncation toward zero. -/
def pyInt (x : ℚ) : ℤ :=
  if 0 ≤ x then ⌊x⌋ else ⌈x⌉

/-- The remaining-sample count of the release branch (src/main.py line 113):
`num = int(((1 / FREQUENCY) - offset) * SAMPLERATE)`. -/
def remaining_samples (freq sr offset : ℚ) : ℤ :=
  pyInt ((1 / freq - offset) * sr)

/-- The clamp of the remaining-sample count to the buffer length
(src/main.py lines 118-119): `if num > frames: num = frames`, converted to a
natural sample count for `generate_audio`. -/
def clampedNum (freq sr offset : ℚ) (frames : ℕ) : ℕ :=
  (if (frames : ℤ) < remaining_samples freq sr offset then (frames : ℤ)
    else remaining_samples freq sr offset).toNat

/-- `audio_callback` (src/main.py lines 94-122) as a function from the gate
value (`all(keys.values())`), the frame count and the stored offset to the
written buffer and the new stored offset.  Gate on: fill the whole buffer from
`generate_audio` and store its offset.  Gate off: the buffer defaults to
silence; with a nonzero stored offset, if `remaining_samples` is 0 the offset
snaps to 0, otherwise the clamped number of samples is generated into the
beginning of the buffer and the stored offset becomes `max(0, new_offset)`.
(If `num` were negative, `clampedNum = 0` frames are generated; that case is
unreachable from offsets in `[0, period)`, where the Python code never
reaches a negative `num` either.) -/
noncomputable def audio_callback (freq vol sr : ℚ) (channels : ℕ) (gate : Bool) (frames : ℕ)
    (offset : ℚ) : List (List ℝ) × ℚ :=
  if gate then
    generate_audio freq vol sr channels frames offset
  else if offset ≠ 0 then
    if remaining_samples freq sr offset = 0 then (silentBuffer channels frames, 0)
    else
      ((generate_audio freq vol sr channels (clampedNum freq sr offset frames) offset).1 ++
          List.replicate (frames - clampedNum freq sr offset frames) (silentFrame channels),
        max 0 (generate_audio freq vol sr channels (clampedNum freq sr offset frames) offset).2)
  else (silentBuffer channels frames, offset)

theorem audio_callback_true (freq vol sr offset : ℚ) (channels frames : ℕ) :
    audio_callback freq vol sr channels true frames offset =
      generate_audio freq vol sr channels frames offset := by
  unfold audio_callback
  rw [if_pos rfl]

theorem audio_callback_false_zero (freq vol sr : ℚ) (channels frames : ℕ) :
    audio_callback freq vol sr channels false frames 0 =
      (silentBuffer channels frames, 0) := by
  unfold audio_callback
  rw [if_neg (by simp), if_neg (by simp)]

theorem audio_callback_false_ne (freq vol sr offset : ℚ) (channels frames : ℕ)
    (ho : offset ≠ 0) :
    audio_callback freq vol sr channels false frames offset =
      if remaining_samples freq sr offset = 0 then (silentBuffer channels frames, 0)
      else
        ((generate_audio freq vol sr channels (clampedNum freq sr offset frames) offset).1 ++
            List.replicate (frames - clampedNum freq sr offset frames) (silentFrame channels),
          max 0 (generate_audio freq vol sr channels (clampedNum freq sr offset frames) offset).2) := by
  unfold audio_callback
  rw [if_neg (by simp), if_pos ho]

theorem clampedNum_eq_min (freq sr offset : ℚ) (frames : ℕ)
    (hnn : 0 ≤ remaining_samples freq sr offset) :
    clampedNum freq sr offset frames = min (remaining_samples freq sr offset).toNat frames := by
  unfold clampedNum
  split <;> omega

theorem generate_audio_length (freq vol sr offset : ℚ) (channels n : ℕ) :
    (generate_audio freq vol sr channels n offset).1.length = n := by
  unfold generate_audio timePoints
  rw [List.length_map, List.length_map, List.length_range]

theorem wrapOffset_self (period : ℚ) (hp : 0 < period) : wrapOffset period period = 0 := by
  rw [wrapOffset_unfold, if_pos ⟨hp, le_refl period⟩, sub_self]
  exact wrapOffset_of_lt period 0 hp

theorem remaining_samples_nonneg (freq sr offset : ℚ) (hsr : 0 < sr) (h1 : offset ≤ 1 / freq) :
    0 ≤ remaining_samples freq sr offset := by
  unfold remaining_samples pyInt
  have hx : 0 ≤ (1 / freq - offset) * sr := mul_nonneg (by linarith) hsr.le
  rw [if_pos hx]
  exact Int.floor_nonneg.mpr hx

theorem newOffset_mem (freq sr offset : ℚ) (n : ℕ) (hf : 0 < freq) (hsr : 0 < sr)
    (h0 : 0 ≤ offset) :
    0 ≤ newOffset freq sr n offset ∧ newOffset freq sr n offset < 1 / freq :=
  ⟨wrapOffset_nonneg _ _ (by positivity), wrapOffset_lt _ _ (by positivity)⟩

theorem callback_offset_mem (freq vol sr offset : ℚ) (channels frames : ℕ) (gate : Bool)
    (hf : 0 < freq) (hsr : 0 < sr) (h0 : 0 ≤ offset) (h1 : offset < 1 / freq) :
    0 ≤ (audio_callback freq vol sr channels gate frames offset).2 ∧
      (audio_callback freq vol sr channels gate frames offset).2 < 1 / freq := by
  have hper : 0 < 1 / freq := by positivity
  cases gate with
  | true =>
    rw [audio_callback_true]
    exact newOffset_mem freq sr offset frames hf hsr h0
  | false =>
    by_cases ho : offset = 0
    · subst ho
      rw [audio_callback_false_zero]
      exact ⟨le_refl 0, hper⟩
    · rw [audio_callback_false_ne freq vol sr offset channels frames ho]
      by_cases hnum : remaining_samples freq sr offset = 0
      · rw [if_pos hnum]
        exact ⟨le_refl 0, hper⟩
      · rw [if_neg hnum]
        refine ⟨le_max_left 0 _, max_lt hper ?_⟩
        exact (newOffset_mem freq sr offset _ hf hsr h0).2

/-- C3: the offset returned by `generate_audio` lies in `[0, period)` and is
never negative, and the offset stored by the render callback (gate-on branch,
release-tail branch with its floor-at-zero clamp, and the silent branch)
also lies in `[0, period)`, for every input offset in `[0, period)`. -/
theorem offset_invariant (freq vol sr offset : ℚ) (channels num_samples frames : ℕ)
    (gate : Bool) (hf : 0 < freq) (hsr : 0 < sr) (h0 : 0 ≤ offset) (h1 : offset < 1 / freq) :
    (0 ≤ (generate_audio freq vol sr channels num_samples offset).2 ∧
      (generate_audio freq vol sr channels num_samples offset).2 < 1 / freq) ∧
    (0 ≤ (audio_callback freq vol sr channels gate frames offset).2 ∧
      (audio_callback freq vol sr channels gate frames offset).2 < 1 / freq) :=
  ⟨newOffset_mem freq sr offset num_samples hf hsr h0,
    callback_offset_mem freq vol sr offset channels frames gate hf hsr h0 h1⟩

/-- Witness for C3 at a concrete input. -/
theorem offset_invariant_witness :
    (0 : ℚ) < 440 ∧ (0 : ℚ) < 44100 ∧ 0 ≤ (1 / 1000 : ℚ) ∧ (1 / 1000 : ℚ) < 1 / 440 ∧
      0 ≤ (audio_callback 440 (1 / 2) 44100 2 false 256 (1 / 1000)).2 ∧
      (audio_callback 440 (1 / 2) 44100 2 false 256 (1 / 1000)).2 < 1 / 440 :=
  ⟨by norm_num, by norm_num, by norm_num, by norm_num,
    (offset_invariant 440 (1 / 2) 44100 (1 / 1000) 2 256 256 false
      (by norm_num) (by norm_num) (by norm_num) (by norm_num)).2⟩

/-- C4 counterexample: with frequency 1 Hz, sample rate 10 Hz and stored
offset 83/100 (so `(period - offset) · sr = 1.7`), the code's
`int(((1 / FREQUENCY) - offset) * SAMPLERATE)` yields 1, not the nearest
integer 2 claimed by the spec. -/
theorem remaining_samples_ne_round :
    remaining_samples 1 10 (83 / 100) ≠ round ((1 / (1 : ℚ) - 83 / 100) * 10) := by
  rw [round_eq]
  unfold remaining_samples pyInt
  norm_num

/-- C4 (amended): on the release branch the callback computes the remaining
sample count by Python `int` truncation, i.e. `⌊(period - offset) · sr⌋`
(floor, since the value is nonnegative there), not by rounding to the nearest
integer, for every offset in `(0, period)`. -/
theorem remaining_samples_eq_floor (freq sr offset : ℚ)
    (hf : 0 < freq) (hsr : 0 < sr) (h0 : 0 < offset) (h1 : offset < 1 / freq) :
    remaining_samples freq sr offset = ⌊(1 / freq - offset) * sr⌋ := by
  unfold remaining_samples pyInt
  exact if_pos (mul_nonneg (by linarith) hsr.le)

/-- Witness for the amended C4 at a concrete input. -/
theorem remaining_samples_eq_floor_witness :
    (0 : ℚ) < 1 ∧ (0 : ℚ) < 10 ∧ (0 : ℚ) < 83 / 100 ∧ (83 / 100 : ℚ) < 1 / 1 ∧
      remaining_samples 1 10 (83 / 100) = ⌊(1 / (1 : ℚ) - 83 / 100) * 10⌋ :=
  ⟨by norm_num, by norm_num, by norm_num, by norm_num,
    remaining_samples_eq_floor 1 10 (83 / 100) (by norm_num) (by norm_num)
      (by norm_num) (by norm_num)⟩

/-- C6: on a gate-released invocation with stored offset in `(0, period)`:
if the remaining-sample count is 0 the offset snaps to 0 and the whole buffer
is silent; otherwise the count is clamped to the frame count, exactly that
many generated samples are written at the beginning of the buffer with all
later frames silent, and the stored offset becomes `max 0` of the offset
returned by generation. -/
theorem audio_callback_release_layout (freq vol sr offset : ℚ) (channels frames : ℕ)
    (hf : 0 < freq) (hsr : 0 < sr) (h0 : 0 < offset) (h1 : offset < 1 / freq) :
    (remaining_samples freq sr offset = 0 →
      audio_callback freq vol sr channels false frames offset =
        (silentBuffer channels frames, 0)) ∧
    (remaining_samples freq sr offset ≠ 0 →
      audio_callback freq vol sr channels false frames offset =
        ((generate_audio freq vol sr channels
            (min (remaining_samples freq sr offset).toNat frames) offset).1 ++
          List.replicate (frames - min (remaining_samples freq sr offset).toNat frames)
            (silentFrame channels),
          max 0 (generate_audio freq vol sr channels
            (min (remaining_samples freq sr offset).toNat frames) offset).2)) := by
  have hnn : 0 ≤ remaining_samples freq sr offset :=
    remaining_samples_nonneg freq sr offset hsr h1.le
  have hmin : clampedNum freq sr offset frames =
      min (remaining_samples freq sr offset).toNat frames :=
    clampedNum_eq_min freq sr offset frames hnn
  constructor
  · intro hz
    rw [audio_callback_false_ne freq vol sr offset channels frames h0.ne', if_pos hz]
  · intro hz
    rw [audio_callback_false_ne freq vol sr offset channels frames h0.ne', if_neg hz, hmin]

/-- Witness for C6 at a concrete input. -/
theorem audio_callback_release_layout_witness :
    (0 : ℚ) < 1 ∧ (0 : ℚ) < 10 ∧ (0 : ℚ) < 83 / 100 ∧ (83 / 100 : ℚ) < 1 / 1 ∧
      (remaining_samples 1 10 (83 / 100) ≠ 0 →
        audio_callback 1 (1 / 2) 10 2 false 256 (83 / 100) =
          ((generate_audio 1 (1 / 2) 10 2
              (min (remaining_samples 1 10 (83 / 100)).toNat 256) (83 / 100)).1 ++
            List.replicate (256 - min (remaining_samples 1 10 (83 / 100)).toNat 256)
              (silentFrame 2),
            max 0 (generate_audio 1 (1 / 2) 10 2
              (min (remaining_samples 1 10 (83 / 100)).toNat 256) (83 / 100)).2)) :=
  ⟨by norm_num, by norm_num, by norm_num, by norm_num,
    (audio_callback_release_layout 1 (1 / 2) 10 (83 / 100) 2 256
      (by norm_num) (by norm_num) (by norm_num) (by norm_num)).2⟩

/-- Iterated invocations of the render callback: each step is a
(gate, frames) pair; the stored offset is threaded through, and the written
buffers are collected in order. -/
noncomputable def runCallback (freq vol sr : ℚ) (channels : ℕ) :
    List (Bool × ℕ) → ℚ → List (List (List ℝ)) × ℚ
  | [], offset => ([], offset)
  | step :: rest, offset =>
    ((audio_callback freq vol sr channels step.1 step.2 offset).1 ::
        (runCallback freq vol sr channels rest
          (audio_callback freq vol sr channels step.1 step.2 offset).2).1,
      (runCallback freq vol sr channels rest
        (audio_callback freq vol sr channels step.1 step.2 offset).2).2)

open Classical in
/-- Whether a frame differs from the all-zero frame. -/
noncomputable def isNonSilent (channels : ℕ) (frame : List ℝ) : Bool :=
  decide (frame ≠ silentFrame channels)

/-- Total number of frames, over a list of buffers, that are not all-zero. -/
noncomputable def nonSilentCount (channels : ℕ) (bufs : List (List (List ℝ))) : ℕ :=
  (bufs.map (fun b => b.countP (isNonSilent channels))).sum

/-- Number of non-silent frames the release tail can still emit from a given
stored offset. -/
def releaseBudget (freq sr offset : ℚ) : ℕ :=
  if offset = 0 then 0 else (remaining_samples freq sr offset).toNat

theorem runCallback_cons (freq vol sr : ℚ) (channels : ℕ) (s : Bool × ℕ)
    (rest : List (Bool × ℕ)) (offset : ℚ) :
    runCallback freq vol sr channels (s :: rest) offset =
      ((audio_callback freq vol sr channels s.1 s.2 offset).1 ::
          (runCallback freq vol sr channels rest
            (audio_callback freq vol sr channels s.1 s.2 offset).2).1,
        (runCallback freq vol sr channels rest
          (audio_callback freq vol sr channels s.1 s.2 offset).2).2) := rfl

theorem countP_silent_replicate (channels m : ℕ) :
    (List.replicate m (silentFrame channels)).countP (isNonSilent channels) = 0 := by
  rw [List.countP_eq_zero]
  intro a ha
  rw [List.eq_of_mem_replicate ha]
  simp [isNonSilent]

theorem nonSilentCount_nil (channels : ℕ) : nonSilentCount channels [] = 0 := rfl

theorem nonSilentCount_cons (channels : ℕ) (b : List (List ℝ)) (bs : List (List (List ℝ))) :
    nonSilentCount channels (b :: bs) =
      b.countP (isNonSilent channels) + nonSilentCount channels bs := by
  unfold nonSilentCount
  rw [List.map_cons, List.sum_cons]

theorem release_step_budget (freq vol sr offset : ℚ) (channels frames : ℕ)
    (hf : 0 < freq) (hsr : 0 < sr) (h0 : 0 ≤ offset) (h1 : offset < 1 / freq) :
    (audio_callback freq vol sr channels false frames offset).1.countP (isNonSilent channels) +
        releaseBudget freq sr (audio_callback freq vol sr channels false frames offset).2 ≤
      releaseBudget freq sr offset := by
  have hsr0 : sr ≠ 0 := ne_of_gt hsr
  by_cases ho : offset = 0
  · subst ho
    rw [audio_callback_false_zero]
    dsimp only
    unfold silentBuffer
    rw [countP_silent_replicate]
    simp [releaseBudget]
  · rw [audio_callback_false_ne freq vol sr offset channels frames ho]
    by_cases hnum : remaining_samples freq sr offset = 0
    · rw [if_pos hnum]
      dsimp only
      unfold silentBuffer
      rw [countP_silent_replicate]
      simp [releaseBudget]
    · rw [if_neg hnum]
      dsimp only
      have h0' : 0 < offset := lt_of_le_of_ne h0 (Ne.symm ho)
      have hfloor := remaining_samples_eq_floor freq sr offset hf hsr h0' h1
      have hnn := remaining_samples_nonneg freq sr offset hsr h1.le
      have hkmin := clampedNum_eq_min freq sr offset frames hnn
      set num := remaining_samples freq sr offset with hnumd
      set k := clampedNum freq sr offset frames with hkd
      have hcount : ((generate_audio freq vol sr channels k offset).1 ++
          List.replicate (frames - k) (silentFrame channels)).countP (isNonSilent channels) ≤ k := by
        rw [List.countP_append, countP_silent_replicate]
        have h3 : (generate_audio freq vol sr channels k offset).1.countP (isNonSilent channels) ≤
            (generate_audio freq vol sr channels k offset).1.length :=
          List.countP_le_length _
        rw [generate_audio_length] at h3
        omega
      have hmax : max (0 : ℚ) ((generate_audio freq vol sr channels k offset).2) =
          newOffset freq sr k offset := by
        have hsame : (generate_audio freq vol sr channels k offset).2 =
            newOffset freq sr k offset := rfl
        rw [hsame]
        exact max_eq_right (newOffset_mem freq sr offset k hf hsr h0).1
      rw [hmax]
      have hkleZ : (k : ℤ) ≤ num := by omega
      have hkq : (k : ℚ) ≤ (1 / freq - offset) * sr := by
        have h5 : ((num : ℤ) : ℚ) ≤ (1 / freq - offset) * sr := by
          rw [hfloor]
          exact Int.floor_le _
        have h6 : ((k : ℕ) : ℚ) ≤ ((num : ℤ) : ℚ) := by exact_mod_cast hkleZ
        linarith
      have ho2le : offset + (k : ℚ) / sr ≤ 1 / freq := by
        have h7 : (k : ℚ) / sr ≤ 1 / freq - offset := (div_le_iff₀ hsr).mpr hkq
        linarith
      have hbo : releaseBudget freq sr offset = num.toNat := by
        unfold releaseBudget
        rw [if_neg ho]
      by_cases hper : offset + (k : ℚ) / sr = 1 / freq
      · have hz : newOffset freq sr k offset = 0 := by
          unfold newOffset
          rw [hper]
          exact wrapOffset_self _ (by positivity)
        rw [hz]
        have hb0 : releaseBudget freq sr 0 = 0 := by simp [releaseBudget]
        omega
      · have hlt : offset + (k : ℚ) / sr < 1 / freq := lt_of_le_of_ne ho2le hper
        have ho2pos : 0 < offset + (k : ℚ) / sr :=
          add_pos_of_pos_of_nonneg h0' (by positivity)
        have hno : newOffset freq sr k offset = offset + (k : ℚ) / sr := by
          unfold newOffset
          exact wrapOffset_of_lt _ _ hlt
        rw [hno]
        have hrs2 : remaining_samples freq sr (offset + (k : ℚ) / sr) = num - k := by
          rw [remaining_samples_eq_floor freq sr _ hf hsr ho2pos hlt]
          have harg : (1 / freq - (offset + (k : ℚ) / sr)) * sr =
              (1 / freq - offset) * sr - ((k : ℤ) : ℚ) := by
            push_cast
            field_simp
            ring
          rw [harg, Int.floor_sub_int, ← hfloor]
        have hbo2 : releaseBudget freq sr (offset + (k : ℚ) / sr) = (num - k).toNat := by
          unfold releaseBudget
          rw [if_neg ho2pos.ne', hrs2]
        omega

theorem run_release_budget (freq vol sr : ℚ) (channels : ℕ) (hf : 0 < freq) (hsr : 0 < sr) :
    ∀ (steps : List (Bool × ℕ)) (offset : ℚ), (∀ s ∈ steps, s.1 = false) →
      0 ≤ offset → offset < 1 / freq →
      nonSilentCount channels (runCallback freq vol sr channels steps offset).1 ≤
        releaseBudget freq sr offset := by
  intro steps
  induction steps with
  | nil =>
    intro o _ _ _
    rw [show runCallback freq vol sr channels [] o = ([], o) from rfl, nonSilentCount_nil]
    exact Nat.zero_le _
  | cons s rest ih =>
    intro o hgates h0 h1
    have hs : s.1 = false := hgates s (List.mem_cons_self s rest)
    have hrest : ∀ x ∈ rest, x.1 = false := fun x hx => hgates x (List.mem_cons_of_mem s hx)
    rw [runCallback_cons]
    dsimp only
    rw [hs, nonSilentCount_cons]
    have hmem := callback_offset_mem freq vol sr o channels s.2 false hf hsr h0 h1
    have hstep := release_step_budget freq vol sr o channels s.2 hf hsr h0 h1
    have hih := ih (audio_callback freq vol sr channels false s.2 o).2 hrest hmem.1 hmem.2
    omega

theorem run_silent_from_zero (freq vol sr : ℚ) (channels : ℕ) :
    ∀ (steps : List (Bool × ℕ)), (∀ s ∈ steps, s.1 = false) →
      runCallback freq vol sr channels steps 0 =
        (steps.map (fun s => silentBuffer channels s.2), 0) := by
  intro steps
  induction steps with
  | nil =>
    intro _
    rfl
  | cons s rest ih =>
    intro hgates
    have hs : s.1 = false := hgates s (List.mem_cons_self s rest)
    have hrest : ∀ x ∈ rest, x.1 = false := fun x hx => hgates x (List.mem_cons_of_mem s hx)
    rw [runCallback_cons, hs, audio_callback_false_zero]
    dsimp only
    rw [ih hrest, List.map_cons]

/-- C5: with the gate released at every invocation: from stored offset 0,
every buffer written by the run is exactly silent and the offset stays 0; and
from any stored offset in `[0, period)` the total number of non-silent frames
emitted over the whole run is at most `(period - offset) · sample_rate` — at
most one remaining wave period's worth of audio before the silent steady
state. -/
theorem audio_callback_gate_off_steady_state (freq vol sr offset : ℚ) (channels : ℕ)
    (steps : List (Bool × ℕ)) (hf : 0 < freq) (hsr : 0 < sr)
    (hgates : ∀ s ∈ steps, s.1 = false) (h0 : 0 ≤ offset) (h1 : offset < 1 / freq) :
    (offset = 0 →
      runCallback freq vol sr channels steps offset =
        (steps.map (fun s => silentBuffer channels s.2), 0)) ∧
    ((nonSilentCount channels (runCallback freq vol sr channels steps offset).1 : ℚ) ≤
      (1 / freq - offset) * sr) := by
  constructor
  · intro hz
    subst hz
    exact run_silent_from_zero freq vol sr channels steps hgates
  · have hb := run_release_budget freq vol sr channels hf hsr steps offset hgates h0 h1
    have hb2 : ((releaseBudget freq sr offset : ℕ) : ℚ) ≤ (1 / freq - offset) * sr := by
      unfold releaseBudget
      by_cases ho : offset = 0
      · subst ho
        rw [if_pos rfl]
        have h9 : (0 : ℚ) ≤ 1 / freq - 0 := by
          rw [sub_zero]
          positivity
        have h10 : (0 : ℚ) ≤ (1 / freq - 0) * sr := mul_nonneg h9 hsr.le
        simpa using h10
      · rw [if_neg ho]
        have h0' : 0 < offset := lt_of_le_of_ne h0 (Ne.symm ho)
        have hfloor := remaining_samples_eq_floor freq sr offset hf hsr h0' h1
        have hnn := remaining_samples_nonneg freq sr offset hsr h1.le
        have hc : ((remaining_samples freq sr offset).toNat : ℚ) =
            ((remaining_samples freq sr offset : ℤ) : ℚ) := by
          exact_mod_cast Int.toNat_of_nonneg hnn
        rw [hc, hfloor]
        exact_mod_cast Int.floor_le _
    calc (nonSilentCount channels (runCallback freq vol sr channels steps offset).1 : ℚ)
        ≤ ((releaseBudget freq sr offset : ℕ) : ℚ) := by exact_mod_cast hb
      _ ≤ (1 / freq - offset) * sr := hb2

/-- Witness for C5 at a concrete input. -/
theorem audio_callback_gate_off_steady_state_witness :
    (0 : ℚ) < 440 ∧ (0 : ℚ) < 44100 ∧
      (∀ s ∈ [((false : Bool), (4 : ℕ))], s.1 = false) ∧ 0 ≤ (0 : ℚ) ∧ (0 : ℚ) < 1 / 440 ∧
      runCallback 440 (1 / 2) 44100 2 [(false, 4)] 0 =
        ([((false : Bool), (4 : ℕ))].map (fun s => silentBuffer 2 s.2), 0) :=
  ⟨by norm_num, by norm_num, by decide, le_refl 0, by norm_num,
    (audio_callback_gate_off_steady_state 440 (1 / 2) 44100 0 2 [(false, 4)]
      (by norm_num) (by norm_num) (by decide) (le_refl 0) (by norm_num)).1 rfl⟩

/-- Model of the pynput key objects used by `keyutils.py`: a special key
(`keyboard.Key` attribute, tagged by its attribute name) or a
`keyboard.KeyCode` holding a single character. -/
inductive KeyObj where
  | special (attr : String)
  | keyCode (char : Char)
deriving DecidableEq

/-- Model of Python `str.lower` on one character (ASCII range, which is all
that key names use): an uppercase letter (code 65-90) shifts to its lowercase
counterpart, every other character is unchanged. -/
def pyCharLower (c : Char) : Char :=
  if 65 ≤ c.toNat ∧ c.toNat ≤ 90 then Char.ofNat (c.toNat + 32) else c

/-- Model of Python `str.lower` on a string. -/
def pyLower (s : String) : String :=
  ⟨s.data.map pyCharLower⟩

/-- The names of the `SPECIAL_KEYS` dict (src/utils/keyutils.py lines 11-72),
in source order. -/
def SPECIAL_KEY_NAMES : List String :=
  ["alt", "alt_gr", "alt_l", "alt_r", "backspace", "caps_lock", "cmd", "cmd_l",
    "cmd_r", "ctrl", "ctrl_l", "ctrl_r", "delete", "down", "end", "enter",
    "esc", "f1", "f2", "f3", "f4", "f5", "f6", "f7", "f8", "f9", "f10", "f11",
    "f12", "f13", "f14", "f15", "f16", "f17", "f18", "f19", "f20", "home",
    "insert", "left", "media_next", "media_play_pause", "media_previous",
    "media_volume_down", "media_volume_mute", "media_volume_up", "menu",
    "num_lock", "page_down", "page_up", "pause", "print_screen", "right",
    "scroll_lock", "shift", "shift_l", "shift_r", "space", "tab", "up"]

/-- The `SPECIAL_KEYS` dict (src/utils/keyutils.py lines 11-72).  In the
source every entry maps a name to the pynput `Key` attribute of that same
name, so the dict is the association list pairing each name with its tagged
key object. -/
def SPECIAL_KEYS : List (String × KeyObj) :=
  SPECIAL_KEY_NAMES.map (fun s => (s, KeyObj.special s))

/-- `key_object` (src/utils/keyutils.py lines 74-89): lowercase the name; a
special-key name maps to its pynput `Key`; otherwise a single-character name
maps to a `KeyCode` holding that character; anything else raises a
`ValueError` whose message is the string "Unknown key: " followed by the
lowercased name. -/
def key_object (name : String) : Except String KeyObj :=
  match SPECIAL_KEYS.lookup (pyLower name) with
  | some k => Except.ok k
  | none =>
    if (pyLower name).length = 1 then
      Except.ok (KeyObj.keyCode ((pyLower name).data.headD ' '))
    else
      Except.error ("Unknown key: " ++ pyLower name)

/-- Python dict assignment for the dict comprehension in `keys_dict`: update
the entry if the key is present, else append it. -/
def dictInsert (d : List (KeyObj × Bool)) (k : KeyObj) (v : Bool) : List (KeyObj × Bool) :=
  if k ∈ d.map Prod.fst then
    d.map (fun p => if p.1 = k then (p.1, v) else p)
  else d ++ [(k, v)]

/-- `keys_dict` (src/utils/keyutils.py lines 91-98): the dict comprehension
mapping each named key object to `False`; it propagates the `ValueError` of
`key_object` for an unknown name. -/
def keys_dict (key_names : List String) : Except String (List (KeyObj × Bool)) :=
  key_names.foldlM (fun d name => (key_object name).map (fun k => dictInsert d k false)) []

/-- `on_press` (src/main.py lines 62-68): set the key's entry to `True`, but
only when the key is one of the configured keys. -/
def on_press (keys : List (KeyObj × Bool)) (key : KeyObj) : List (KeyObj × Bool) :=
  if key ∈ keys.map Prod.fst then
    keys.map (fun p => if p.1 = key then (p.1, true) else p)
  else keys

/-- `on_release` (src/main.py lines 70-76): set the key's entry to `False`,
but only when the key is one of the configured keys. -/
def on_release (keys : List (KeyObj × Bool)) (key : KeyObj) : List (KeyObj × Bool) :=
  if key ∈ keys.map Prod.fst then
    keys.map (fun p => if p.1 = key then (p.1, false) else p)
  else keys

theorem pyCharLower_idem (c : Char) : pyCharLower (pyCharLower c) = pyCharLower c := by
  unfold pyCharLower
  by_cases h : 65 ≤ c.toNat ∧ c.toNat ≤ 90
  · rw [if_pos h]
    have ht : (Char.ofNat (c.toNat + 32)).toNat = c.toNat + 32 := by
      have hv : Nat.isValidChar (c.toNat + 32) := Or.inl (by omega)
      unfold Char.ofNat
      rw [dif_pos hv]
      rfl
    rw [if_neg]
    rw [ht]
    omega
  · rw [if_neg h, if_neg h]

theorem pyLower_idem (s : String) : pyLower (pyLower s) = pyLower s := by
  unfold pyLower
  congr 1
  show (s.data.map pyCharLower).map pyCharLower = s.data.map pyCharLower
  rw [List.map_map]
  apply List.map_congr_left
  intro c _
  simp only [Function.comp_apply]
  exact pyCharLower_idem c

theorem lookup_eq_none_of_forall_ne {β : Type} (s : String) :
    ∀ l : List (String × β), (∀ p ∈ l, p.1 ≠ s) → l.lookup s = none := by
  intro l
  induction l with
  | nil =>
    intro _
    rfl
  | cons p rest ih =>
    intro h
    obtain ⟨k, v⟩ := p
    have hp : k ≠ s := h (k, v) (List.mem_cons_self (k, v) rest)
    rw [List.lookup_cons]
    have hb : (s == k) = false := beq_eq_false_iff_ne.mpr (Ne.symm hp)
    rw [hb]
    exact ih (fun q hq => h q (List.mem_cons_of_mem (k, v) hq))

theorem special_keys_lookup_short (s : String) (h : s.length = 1) :
    SPECIAL_KEYS.lookup s = none := by
  have hall : ∀ p ∈ SPECIAL_KEYS, 2 ≤ p.1.length := by decide
  apply lookup_eq_none_of_forall_ne
  intro p hp he
  have h2 := hall p hp
  rw [he, h] at h2
  omega

/-- C9: key mapping is case-insensitive: `key_object` gives the same result
on a name and on its lowercased form, and a single uppercase character maps
to the `KeyCode` of its lowercase counterpart. -/
theorem key_object_case_insensitive :
    (∀ name : String, key_object name = key_object (pyLower name)) ∧
    (∀ c : Char, 65 ≤ c.toNat → c.toNat ≤ 90 →
      key_object (String.mk [c]) = Except.ok (KeyObj.keyCode (pyCharLower c))) := by
  constructor
  · intro name
    unfold key_object
    rw [pyLower_idem]
  · intro c h1 h2
    unfold key_object
    have hlow : pyLower (String.mk [c]) = String.mk [pyCharLower c] := rfl
    rw [hlow]
    have hlen : (String.mk [pyCharLower c]).length = 1 := rfl
    rw [special_keys_lookup_short _ hlen]
    rw [if_pos hlen]
    rfl

/-- Witness for C9 at a concrete input. -/
theorem key_object_case_insensitive_witness :
    65 ≤ (Char.toNat 'A') ∧ (Char.toNat 'A') ≤ 90 ∧
      key_object (String.mk ['A']) = Except.ok (KeyObj.keyCode (pyCharLower 'A')) :=
  ⟨by decide, by decide, key_object_case_insensitive.2 'A' (by decide) (by decide)⟩

/-- C8: a key name whose lowercase form is neither a supported special-key
name nor a single character makes `key_object` raise an error whose message
names the offending (lowercased) token, and every supported name yields a key
object without error. -/
theorem key_object_unknown_key_error :
    (∀ name : String, SPECIAL_KEYS.lookup (pyLower name) = none →
        (pyLower name).length ≠ 1 →
        key_object name = Except.error ("Unknown key: " ++ pyLower name)) ∧
    (∀ name : String,
        ((∃ k, SPECIAL_KEYS.lookup (pyLower name) = some k) ∨ (pyLower name).length = 1) →
        ∃ k, key_object name = Except.ok k) := by
  constructor
  · intro name hnone hlen
    unfold key_object
    rw [hnone, if_neg hlen]
  · intro name hsup
    unfold key_object
    rcases hsup with ⟨k, hk⟩ | hlen
    · rw [hk]
      exact ⟨k, rfl⟩
    · cases hcase : SPECIAL_KEYS.lookup (pyLower name) with
      | some k =>
        exact ⟨k, rfl⟩
      | none =>
        rw [if_pos hlen]
        exact ⟨_, rfl⟩

/-- Witness for C8 at a concrete input. -/
theorem key_object_unknown_key_error_witness :
    SPECIAL_KEYS.lookup (pyLower ("foo_bar")) = none ∧ (pyLower ("foo_bar")).length ≠ 1 ∧
      key_object ("foo_bar") = Except.error ("Unknown key: " ++ pyLower ("foo_bar")) :=
  ⟨by decide, by decide,
    key_object_unknown_key_error.1 ("foo_bar") (by decide) (by decide)⟩

theorem dictInsert_false_values (d : List (KeyObj × Bool)) (k : KeyObj)
    (h : ∀ p ∈ d, p.2 = false) : ∀ p ∈ dictInsert d k false, p.2 = false := by
  intro p hp
  unfold dictInsert at hp
  by_cases hm : k ∈ d.map Prod.fst
  · rw [if_pos hm] at hp
    obtain ⟨q, hq, hqe⟩ := List.mem_map.mp hp
    by_cases hqk : q.1 = k
    · rw [if_pos hqk] at hqe
      rw [← hqe]
    · rw [if_neg hqk] at hqe
      rw [← hqe]
      exact h q hq
  · rw [if_neg hm] at hp
    rcases List.mem_append.mp hp with h1 | h2
    · exact h p h1
    · rw [List.mem_singleton.mp h2]

theorem keys_dict_false_aux (names : List String) :
    ∀ (acc : List (KeyObj × Bool)), (∀ p ∈ acc, p.2 = false) →
      ∀ d, List.foldlM
          (fun d name => (key_object name).map (fun k => dictInsert d k false)) acc names =
          Except.ok d →
      ∀ p ∈ d, p.2 = false := by
  induction names with
  | nil =>
    intro acc hacc d hd
    rw [List.foldlM_nil] at hd
    cases hd
    exact hacc
  | cons n ns ih =>
    intro acc hacc d hd
    rw [List.foldlM_cons] at hd
    cases hko : key_object n with
    | error e =>
      rw [hko] at hd
      have hcontra : (Except.error e : Except String (List (KeyObj × Bool))) =
          Except.ok d := hd
      cases hcontra
    | ok k =>
      rw [hko] at hd
      exact ih (dictInsert acc k false) (dictInsert_false_values acc k hacc) d hd

/-- C10: a press or release event for a key outside the configured key set
leaves the key-state dictionary unchanged; an event for a configured key
changes only that key's entry; the set of keys never changes after
construction; and `keys_dict` initializes every entry to `False`. -/
theorem key_state_frame_property :
    (∀ (keys : List (KeyObj × Bool)) (k : KeyObj), k ∉ keys.map Prod.fst →
      on_press keys k = keys ∧ on_release keys k = keys) ∧
    (∀ (keys : List (KeyObj × Bool)) (k : KeyObj),
      (on_press keys k).map Prod.fst = keys.map Prod.fst ∧
      (on_release keys k).map Prod.fst = keys.map Prod.fst) ∧
    (∀ (keys : List (KeyObj × Bool)) (k : KeyObj), ∀ p ∈ keys, p.1 ≠ k →
      p ∈ on_press keys k ∧ p ∈ on_release keys k) ∧
    (∀ (names : List String) (d : List (KeyObj × Bool)),
      keys_dict names = Except.ok d → ∀ p ∈ d, p.2 = false) := by
  have hfst : ∀ (keys : List (KeyObj × Bool)) (k : KeyObj) (v : Bool),
      (keys.map (fun p => if p.1 = k then (p.1, v) else p)).map Prod.fst =
        keys.map Prod.fst := by
    intro keys k v
    rw [List.map_map]
    apply List.map_congr_left
    intro p _
    simp only [Function.comp_apply]
    split <;> rfl
  have hmem : ∀ (keys : List (KeyObj × Bool)) (k : KeyObj) (v : Bool),
      ∀ p ∈ keys, p.1 ≠ k → p ∈ keys.map (fun p => if p.1 = k then (p.1, v) else p) := by
    intro keys k v p hp hpk
    have he : (if p.1 = k then (p.1, v) else p) = p := if_neg hpk
    rw [← he]
    exact List.mem_map_of_mem _ hp
  refine ⟨?_, ?_, ?_, ?_⟩
  · intro keys k h
    unfold on_press on_release
    rw [if_neg h, if_neg h]
    exact ⟨rfl, rfl⟩
  · intro keys k
    unfold on_press on_release
    constructor
    · by_cases hm : k ∈ keys.map Prod.fst
      · rw [if_pos hm]
        exact hfst keys k true
      · rw [if_neg hm]
    · by_cases hm : k ∈ keys.map Prod.fst
      · rw [if_pos hm]
        exact hfst keys k false
      · rw [if_neg hm]
  · intro keys k p hp hpk
    unfold on_press on_release
    constructor
    · by_cases hm : k ∈ keys.map Prod.fst
      · rw [if_pos hm]
        exact hmem keys k true p hp hpk
      · rw [if_neg hm]
        exact hp
    · by_cases hm : k ∈ keys.map Prod.fst
      · rw [if_pos hm]
        exact hmem keys k false p hp hpk
      · rw [if_neg hm]
        exact hp
  · intro names d hd
    exact keys_dict_false_aux names [] (by intro p hp; cases hp) d hd

/-- Witness for C10 at a concrete input. -/
theorem key_state_frame_property_witness :
    (KeyObj.keyCode 'x') ∉ ([(KeyObj.special ("shift_r"), false)].map Prod.fst) ∧
      on_press [(KeyObj.special ("shift_r"), false)] (KeyObj.keyCode 'x') =
        [(KeyObj.special ("shift_r"), false)] ∧
      on_release [(KeyObj.special ("shift_r"), false)] (KeyObj.keyCode 'x') =
        [(KeyObj.special ("shift_r"), false)] :=
  ⟨by decide,
    (key_state_frame_property.1 [(KeyObj.special ("shift_r"), false)]
      (KeyObj.keyCode 'x') (by decide)).1,
    (key_state_frame_property.1 [(KeyObj.special ("shift_r"), false)]
      (KeyObj.keyCode 'x') (by decide)).2⟩

end MorseDiscord
